import Mathlib

/- Formal model of the image2 repository: the geometric `Transform` filter
   (src/transform.rs), the window event layer (src/window.rs), and the
   filter-evaluation machinery those files exercise (src/tests.rs).
   Rust `f64` arithmetic is idealised as exact rational arithmetic, and an
   `as usize` cast of a nonnegative value is modelled by flooring into ℕ. -/

namespace Image2

/-- A point with natural-number coordinates (the crate's `Point` of `usize`). -/
structure Point where
  x : ℕ
  y : ℕ
deriving DecidableEq

/-- Width and height of an image or window (the crate's `Size`). -/
structure Size where
  width : ℕ
  height : ℕ
deriving DecidableEq

/-- A pixel: the list of its channel values in normalized rational form. -/
abbrev Pixel := List ℚ

/-- Channelwise pixel addition (`px1 + px2`). -/
def pixAdd (a b : Pixel) : Pixel := List.zipWith (· + ·) a b

/-- Channelwise division by two (`/ 2.`). -/
def pixHalf (p : Pixel) : Pixel := p.map fun v => v / 2

/-- A source image as seen through `get_pixel`: its pixel content as a
function of the requested coordinate pair. -/
structure Image where
  pix : ℕ → ℕ → Pixel

/-- Source `Image::get_pixel` at an `(x, y)` coordinate pair. -/
def get_pixel (img : Image) (p : ℕ × ℕ) : Pixel := img.pix p.1 p.2

/-- euclid `Point2D<f64>`, idealised over ℚ. -/
structure FPoint where
  x : ℚ
  y : ℚ
deriving DecidableEq

/-- euclid `Transform2D<f64>`: a row-major 2D affine matrix. -/
structure Transform2D where
  m11 : ℚ
  m12 : ℚ
  m21 : ℚ
  m22 : ℚ
  m31 : ℚ
  m32 : ℚ
deriving DecidableEq

/-- euclid `Transform2D::transform_point`. -/
def transform_point (T : Transform2D) (p : FPoint) : FPoint :=
  ⟨p.x * T.m11 + p.y * T.m21 + T.m31, p.x * T.m12 + p.y * T.m22 + T.m32⟩

/-- euclid `Transform2D::rotation(theta)` where `c` and `s` are the exact
cosine and sine of `theta` (floating-point trigonometry idealised). -/
def rotation (c s : ℚ) : Transform2D := ⟨c, s, -s, c, 0, 0⟩

/-- euclid translation matrix. -/
def translationT (vx vy : ℚ) : Transform2D := ⟨1, 0, 0, 1, vx, vy⟩

/-- euclid `Transform2D::scale(sx, sy)`. -/
def scaleT (sx sy : ℚ) : Transform2D := ⟨sx, 0, 0, sy, 0, 0⟩

/-- euclid `Transform2D::pre_translate`: the translation is applied before
the transform, so only the translation row changes. -/
def pre_translate (T : Transform2D) (vx vy : ℚ) : Transform2D :=
  { T with
    m31 := vx * T.m11 + vy * T.m21 + T.m31
    m32 := vx * T.m12 + vy * T.m22 + T.m32 }

/-- euclid `Transform2D::then_translate`: translation applied afterwards. -/
def then_translate (T : Transform2D) (vx vy : ℚ) : Transform2D :=
  { T with m31 := T.m31 + vx, m32 := T.m32 + vy }

/-- euclid `Transform2D::then`: `thenT A B` first applies `A`, then `B`
(matrix product of the two affine matrices). -/
def thenT (A B : Transform2D) : Transform2D :=
  ⟨A.m11 * B.m11 + A.m12 * B.m21,
   A.m11 * B.m12 + A.m12 * B.m22,
   A.m21 * B.m11 + A.m22 * B.m21,
   A.m21 * B.m12 + A.m22 * B.m22,
   A.m31 * B.m11 + A.m32 * B.m21 + B.m31,
   A.m31 * B.m12 + A.m32 * B.m22 + B.m32⟩

/-- Rust `q.floor() as usize` for the nonnegative values arising here
(negative values saturate to 0, as the cast does). -/
def floor_usize (q : ℚ) : ℕ := ⌊q⌋.toNat

/-- Rust `q.ceil() as usize`, with the same saturation at 0. -/
def ceil_usize (q : ℚ) : ℕ := ⌈q⌉.toNat

/-- Source `Transform::compute_at` (src/transform.rs): map the destination point
through the stored matrix, sample the source at the floored and at the
ceiled coordinate, and output the channelwise average of the two pixels. -/
def compute_at (T : Transform2D) (pt : Point) (input : Image) : Pixel :=
  let dest := transform_point T ⟨(pt.x : ℚ), (pt.y : ℚ)⟩
  let px1 := get_pixel input (floor_usize dest.x, floor_usize dest.y)
  let px2 := get_pixel input (ceil_usize dest.x, ceil_usize dest.y)
  pixHalf (pixAdd px1 px2)

/-- Constructor `rotate(deg, center)` from the source:
`rotation(degrees(-deg)).pre_translate(-center).then_translate(center)`.
The parameters `c` and `s` are the exact cosine and sine of `-deg` degrees,
the angle the source hands to euclid's rotation constructor. -/
def rotate (c s : ℚ) (center : ℚ × ℚ) : Transform2D :=
  then_translate (pre_translate (rotation c s) (-center.1) (-center.2))
    center.1 center.2

/-- Constructor `scale(x, y)` from the source: `Transform2D::scale(1/x, 1/y)`. -/
def scale (x y : ℚ) : Transform2D := scaleT (1 / x) (1 / y)

/-- Constructor `resize(from, to)` from the source:
`Transform2D::scale(from.width / to.width, from.height / to.height)`. -/
def resize (fromS toS : Size) : Transform2D :=
  scaleT ((fromS.width : ℚ) / (toS.width : ℚ))
    ((fromS.height : ℚ) / (toS.height : ℚ))

/-- Constructor `rotate90(from, to)` from the source:
`rotate(90., (to.width / 2., from.height / 2.))`; the cosine and sine of
-90 degrees are exactly 0 and -1. -/
def rotate90 (fromS toS : Size) : Transform2D :=
  rotate 0 (-1) ((toS.width : ℚ) / 2, (fromS.height : ℚ) / 2)

/-- The forward affine rotation about a center with cosine `c` and sine `s`:
translate by `-center`, rotate, translate back, composed into one matrix. -/
def rotation_about (c s : ℚ) (center : ℚ × ℚ) : Transform2D :=
  thenT (thenT (translationT (-center.1) (-center.2)) (rotation c s))
    (translationT center.1 center.2)

/-- Modelled from the spec: the default `Filter::eval` (the `Filter` trait
implementation is not part of the sources under review) iterates every
coordinate of the destination bounds in row-major order and invokes
`compute_at`; the destination buffer is the resulting list of pixels. -/
def eval (T : Transform2D) (input : Image) (dest : Size) : List Pixel :=
  (List.range (dest.width * dest.height)).map fun i =>
    compute_at T ⟨i % dest.width, i / dest.width⟩ input

/-- A concrete constant one-channel source image used by witnesses. -/
def constImage : Image := ⟨fun _ _ => [(1 : ℚ)]⟩

/-- The pieces of `Window` state its event handling reads and writes: the
window size, the displayed image's dimensions (`image.meta`), the cursor
position, and the closed flag (`close` sets both `closed` and the GLFW
should-close flag, so one boolean models `closed || should_close`). -/
structure Window where
  size : Size
  image : Size
  position : Point
  closed : Bool
deriving DecidableEq

/-- Source `Window::scale_mouse_position`: shift the cursor by the letterbox
offset (`usize` saturating subtraction is ℕ subtraction), clamp it into
the displayed rectangle, and divide by the scale factor.  The final
`as usize` casts are `floor_usize`; the division-by-zero disagreement
between ℚ and `f64` is unreachable from `fix_mouse_position`, which clamps
the numerator to 0 whenever the factor is 0. -/
def scale_mouse_position (pt : Point) (x y dw dh : ℕ) (r : ℚ) : Point :=
  let px := pt.x - x
  let py := pt.y - y
  let px' := if dw ≤ px then dw - 1 else px
  let py' := if dh ≤ py then dh - 1 else py
  ⟨floor_usize ((px' : ℚ) / r), floor_usize ((py' : ℚ) / r)⟩

/-- Source `Window::fix_mouse_position`: the fit scale of the image into the
window, the displayed rectangle and its centering offsets, then
`scale_mouse_position`. -/
def fix_mouse_position (w : Window) (pt : Point) : Point :=
  let r : ℚ := min ((w.size.width : ℚ) / (w.image.width : ℚ))
    ((w.size.height : ℚ) / (w.image.height : ℚ))
  let dw := floor_usize ((w.image.width : ℚ) * r)
  let dh := floor_usize ((w.image.height : ℚ) * r)
  let x := (w.size.width - dw) / 2
  let y := (w.size.height - dh) / 2
  scale_mouse_position pt x y dw dh r

/-- glfw window events as matched by `Window::events`; cursor coordinates
are modelled after their `as usize` cast, and `other` stands for every
event kind the match passes through unchanged. -/
inductive Event
  | cursorPos (x y : ℕ)
  | size (w h : ℕ)
  | close
  | other (n : ℕ)
deriving DecidableEq

/-- Source `Window::close`: record the window as closed. -/
def close (w : Window) : Window := { w with closed := true }

/-- Source `Window::is_closed`. -/
def is_closed (w : Window) : Bool := w.closed

/-- Source `Window::events`: drain the queued events in order, rewriting cursor
positions through `fix_mouse_position` (also storing them) and recording
size changes; a `Close` event closes the window and breaks out of the
loop, so it is not returned and the rest of the batch is dropped. -/
def events (w : Window) : List Event → Window × List Event
  | [] => (w, [])
  | e :: rest =>
    match e with
    | .cursorPos ex ey =>
        let pt := fix_mouse_position w ⟨ex, ey⟩
        let res := events { w with position := pt } rest
        (res.1, .cursorPos pt.x pt.y :: res.2)
    | .size sw sh =>
        let res := events { w with size := ⟨sw, sh⟩ } rest
        (res.1, .size sw sh :: res.2)
    | .close => (close w, [])
    | .other n =>
        let res := events w rest
        (res.1, .other n :: res.2)

/-- A concrete window used by witnesses: a 100-by-50 window showing a
10-by-10 image. -/
def witWindow : Window := ⟨⟨100, 50⟩, ⟨10, 10⟩, ⟨0, 0⟩, false⟩

/-- An image as its dimensions plus the flat row-major pixel buffer of
`width * height` pixel blocks, the data model of spec section 3. -/
structure BImage where
  width : ℕ
  height : ℕ
  data : List Pixel
deriving DecidableEq

/-- Buffer-backed `get_pixel`: the pixel block starting at
`y * width + x`. -/
def get_pixel_b (img : BImage) (x y : ℕ) : Pixel :=
  img.data.getD (y * img.width + x) []

/-- Modelled from the spec: the default `Filter::eval` over a buffer-backed
image (the `Filter` trait implementation is not among the sources under
review): iterate every destination coordinate in row-major order invoking
the filter's `compute_at`; the destination is allocated like the source. -/
def eval_image (f : Point → BImage → Pixel) (src : BImage) : BImage :=
  ⟨src.width, src.height,
    (List.range (src.width * src.height)).map fun i =>
      f ⟨i % src.width, i / src.width⟩ src⟩

/-- Modelled from the spec: the `Invert` filter is elementwise, output
channel = max-value minus input channel (max 1 in normalized space), with
no color-model change. -/
def invert_at (pt : Point) (src : BImage) : Pixel :=
  (get_pixel_b src pt.x pt.y).map fun v => 1 - v

/-- Clamp a normalized channel value into the valid range [0, 1]. -/
def clamp01 (v : ℚ) : ℚ := max 0 (min 1 v)

/-- Modelled from the spec: `Contrast(factor)` is an elementwise
multiplicative tone adjustment in normalized space, clamped to the valid
range. -/
def contrast_at (factor : ℚ) (pt : Point) (src : BImage) : Pixel :=
  (get_pixel_b src pt.x pt.y).map fun v => clamp01 (v * factor)

/-- Modelled from the spec: `Brightness(factor)` is an elementwise additive
tone adjustment in normalized space, clamped to the valid range. -/
def brightness_at (factor : ℚ) (pt : Point) (src : BImage) : Pixel :=
  (get_pixel_b src pt.x pt.y).map fun v => clamp01 (v + factor)

/-- Modelled from the spec: `and_then` evaluates the left filter into an
intermediate image, then the right filter with that intermediate as its
sole input. -/
def and_then (f g : Point → BImage → Pixel) (src : BImage) : BImage :=
  eval_image g (eval_image f src)

/-- Sum of a pixel's channel values. -/
def pixel_sum (p : Pixel) : ℚ := p.foldl (· + ·) 0

/-- Sum of every channel value in the image. -/
def total_sum (img : BImage) : ℚ :=
  img.data.foldl (fun a p => a + pixel_sum p) 0

/-- Mean pixel channel sum over the buffer. -/
def mean_value (img : BImage) : ℚ := total_sum img / (img.data.length : ℚ)

/-- Modelled from the spec: the content fingerprint `hash()` (its
implementation is not among the sources under review) is a fixed-size
value derived deterministically from pixel content; modelled as a 64-bit
average-hash whose bit `i` records whether the pixel sampled on an
8-by-8 grid exceeds the image-wide mean. -/
def hash (img : BImage) : List Bool :=
  (List.range 64).map fun i =>
    decide (mean_value img < pixel_sum (get_pixel_b img (i % 8) (i / 8)))

/-- Modelled from the spec: `diff` returns a nonnegative distance between
two fingerprints: the number of bit positions where they disagree. -/
def diff (a b : List Bool) : ℕ := (List.zip a b).countP fun q => q.1 != q.2

/-- A destination buffer addressed like the flat pixel store: pixel index
to pixel content. -/
abbrev Buffer := ℕ → Pixel

/-- Modelled from the spec: one concurrent unit of `apply_async` in row
mode writes, for each point of its row `r`, the filter's `compute_at`
result into the destination index range `[r * w, r * w + w)`, and touches
nothing outside that range. -/
def write_row (f : Point → List BImage → Pixel) (inputs : List BImage)
    (w : ℕ) (buf : Buffer) (r : ℕ) : Buffer :=
  fun i => if r * w ≤ i ∧ i < r * w + w then f ⟨i - r * w, r⟩ inputs else buf i

/-- Modelled from the spec: `apply_async(Row, filter, inputs)` schedules
one unit per destination row; `order` is the order in which the units'
disjoint writes land (completion order is unconstrained) and the call
joins every unit before resolving. -/
def apply_async_row (f : Point → List BImage → Pixel) (inputs : List BImage)
    (w : ℕ) (order : List ℕ) (init : Buffer) : Buffer :=
  order.foldl (write_row f inputs w) init

/-- Modelled from the spec: one step of the synchronous default `eval`:
write the `compute_at` result at one destination index. -/
def write_px (f : Point → List BImage → Pixel) (inputs : List BImage)
    (w : ℕ) (buf : Buffer) (i : ℕ) : Buffer :=
  fun j => if j = i then f ⟨i % w, i / w⟩ inputs else buf j

/-- Modelled from the spec: the synchronous `eval(filter, inputs)` writes
`compute_at` at every destination point in row-major order. -/
def eval_filter (f : Point → List BImage → Pixel) (inputs : List BImage)
    (w h : ℕ) (init : Buffer) : Buffer :=
  (List.range (h * w)).foldl (write_px f inputs w) init

/-- A concrete filter used by witnesses. -/
def witFilter : Point → List BImage → Pixel := fun p _ => [(p.x : ℚ) + p.y]

/-- A concrete empty destination buffer used by witnesses. -/
def witBuf : Buffer := fun _ => []

/-- A concrete non-uniform 2-by-1 one-channel image. -/
def witSrc : BImage := ⟨2, 1, [[1 / 5], [2 / 5]]⟩

/-- C1: `Transform::compute_at` applies the stored 2D affine map to the
destination point, reads the source pixel at the floor and at the ceil of
the resulting source coordinate, and writes the channelwise arithmetic
average `(px1 + px2) / 2` of the two pixels. -/
theorem compute_at_floor_ceil_average (T : Transform2D) (pt : Point) (input : Image) :
    compute_at T pt input =
      List.zipWith (fun a b => (a + b) / 2)
        (get_pixel input
          (floor_usize (transform_point T ⟨(pt.x : ℚ), (pt.y : ℚ)⟩).x,
           floor_usize (transform_point T ⟨(pt.x : ℚ), (pt.y : ℚ)⟩).y))
        (get_pixel input
          (ceil_usize (transform_point T ⟨(pt.x : ℚ), (pt.y : ℚ)⟩).x,
           ceil_usize (transform_point T ⟨(pt.x : ℚ), (pt.y : ℚ)⟩).y)) := by
  unfold compute_at pixHalf pixAdd
  rw [List.map_zipWith]

/-- C3: `scale(x, y)` and `resize(from, to)` with `to = from * (x, y)` build
the same affine matrix, so evaluating them over identically sized
destinations yields pixel-identical destination buffers. -/
theorem scale_resize_eval_eq (x y : ℚ) (fromS toS : Size)
    (hx : 0 < x) (hy : 0 < y)
    (hw : 0 < fromS.width) (hh : 0 < fromS.height)
    (hW : (toS.width : ℚ) = (fromS.width : ℚ) * x)
    (hH : (toS.height : ℚ) = (fromS.height : ℚ) * y)
    (input : Image) (dest : Size) :
    eval (scale x y) input dest = eval (resize fromS toS) input dest := by
  have h0w : (fromS.width : ℚ) ≠ 0 := Nat.cast_ne_zero.mpr hw.ne'
  have h0h : (fromS.height : ℚ) ≠ 0 := Nat.cast_ne_zero.mpr hh.ne'
  have h1 : (fromS.width : ℚ) / (toS.width : ℚ) = 1 / x := by
    rw [hW, div_mul_eq_div_div, div_self h0w]
  have h2 : (fromS.height : ℚ) / (toS.height : ℚ) = 1 / y := by
    rw [hH, div_mul_eq_div_div, div_self h0h]
  have hm : resize fromS toS = scale x y := by
    unfold resize scale scaleT
    rw [h1, h2]
  rw [hm]

/-- C3 witness: doubling a 1-by-1 source by `scale(2, 2)` and by
`resize((1,1), (2,2))` writes the same destination buffer. -/
theorem scale_resize_eval_eq_witness :
    eval (scale 2 2) constImage ⟨2, 2⟩ =
      eval (resize ⟨1, 1⟩ ⟨2, 2⟩) constImage ⟨2, 2⟩ :=
  scale_resize_eval_eq 2 2 ⟨1, 1⟩ ⟨2, 2⟩ (by norm_num) (by norm_num)
    (by decide) (by decide) (by norm_num) (by norm_num) constImage ⟨2, 2⟩

/-- C4: `compute_at` maps destination points through the inverse of the
nominal transform: the matrix built by `rotate` undoes (and is undone by)
the forward rotation about the same center; it is literally the composite
translate(-center), rotate by the negated angle, translate(center);
`scale(x, y)` acts as scaling by `(1/x, 1/y)`; `resize(from, to)` acts as
scaling by `(from.width/to.width, from.height/to.height)`; `compute_at`
applies the stored matrix itself to the destination point, with no
per-constructor code path. -/
theorem compute_at_applies_inverse
    (c s x y : ℚ) (center : ℚ × ℚ) (fromS toS : Size)
    (p : FPoint) (pt : Point) (T : Transform2D) (input : Image)
    (h1 : c ^ 2 + s ^ 2 = 1) (hx : x ≠ 0) (hy : y ≠ 0) :
    transform_point (rotate c (-s) center)
        (transform_point (rotation_about c s center) p) = p
      ∧ transform_point (rotation_about c s center)
          (transform_point (rotate c (-s) center) p) = p
      ∧ rotate c (-s) center = rotation_about c (-s) center
      ∧ transform_point (scale x y) p = ⟨p.x * (1 / x), p.y * (1 / y)⟩
      ∧ transform_point (resize fromS toS) p =
          ⟨p.x * ((fromS.width : ℚ) / (toS.width : ℚ)),
           p.y * ((fromS.height : ℚ) / (toS.height : ℚ))⟩
      ∧ compute_at T pt input =
          pixHalf (pixAdd
            (get_pixel input
              (floor_usize (transform_point T ⟨(pt.x : ℚ), (pt.y : ℚ)⟩).x,
               floor_usize (transform_point T ⟨(pt.x : ℚ), (pt.y : ℚ)⟩).y))
            (get_pixel input
              (ceil_usize (transform_point T ⟨(pt.x : ℚ), (pt.y : ℚ)⟩).x,
               ceil_usize (transform_point T ⟨(pt.x : ℚ), (pt.y : ℚ)⟩).y))) := by
  refine ⟨?_, ?_, ?_, ?_, ?_, rfl⟩
  · obtain ⟨px, py⟩ := p
    simp only [rotate, rotation_about, rotation, translationT, thenT,
      pre_translate, then_translate, transform_point, FPoint.mk.injEq]
    constructor
    · linear_combination (px - center.1) * h1
    · linear_combination (py - center.2) * h1
  · obtain ⟨px, py⟩ := p
    simp only [rotate, rotation_about, rotation, translationT, thenT,
      pre_translate, then_translate, transform_point, FPoint.mk.injEq]
    constructor
    · linear_combination (px - center.1) * h1
    · linear_combination (py - center.2) * h1
  · simp only [rotate, rotation_about, rotation, translationT, thenT,
      pre_translate, then_translate, Transform2D.mk.injEq]
    refine ⟨by ring, by ring, by ring, by ring, by ring, by ring⟩
  · simp only [scale, scaleT, transform_point, FPoint.mk.injEq]
    constructor <;> ring
  · simp only [resize, scaleT, transform_point, FPoint.mk.injEq]
    constructor <;> ring

/-- C4 witness: with cosine 0 and sine 1 (a 90 degree rotation) about
center (2, 3), the built matrix undoes the forward rotation at the
concrete point (5, 7). -/
theorem compute_at_applies_inverse_witness :
    transform_point (rotate 0 (-1) (2, 3))
      (transform_point (rotation_about 0 1 (2, 3)) ⟨5, 7⟩) = (⟨5, 7⟩ : FPoint) :=
  (compute_at_applies_inverse 0 1 2 2 (2, 3) ⟨1, 1⟩ ⟨2, 2⟩ ⟨5, 7⟩ ⟨0, 0⟩
    (rotate90 ⟨2, 3⟩ ⟨3, 2⟩) constImage (by norm_num) (by norm_num)
    (by norm_num)).1

/-- C2: the claim fails on the code.  For a 2-by-3 source and the matching
3-by-2 destination, `rotate90` sends the destination point (0, 0) to the
source coordinate (0, 3): both its floor and its ceil have y-coordinate 3,
which is the source height, so the `get_pixel` calls in
`Transform::compute_at` are out of range there. -/
theorem rotate90_samples_out_of_bounds :
    floor_usize (transform_point (rotate90 ⟨2, 3⟩ ⟨3, 2⟩) ⟨0, 0⟩).y = 3 ∧
    ceil_usize (transform_point (rotate90 ⟨2, 3⟩ ⟨3, 2⟩) ⟨0, 0⟩).y = 3 ∧
    ¬ floor_usize (transform_point (rotate90 ⟨2, 3⟩ ⟨3, 2⟩) ⟨0, 0⟩).y <
        (Size.mk 2 3).height := by
  simp only [rotate90, rotate, rotation, pre_translate, then_translate,
    transform_point, floor_usize, ceil_usize]
  norm_num
  rfl

/-- Bounds helper for `scale_mouse_position`: clamping a coordinate below
the displayed extent `floor(n * r)` and dividing by `r` lands strictly
below `n`, for any cursor value and any scale factor. -/
theorem scaled_axis_lt (n q : ℕ) (r : ℚ) (hn : 0 < n) :
    floor_usize
      ((((if floor_usize ((n : ℚ) * r) ≤ q
          then floor_usize ((n : ℚ) * r) - 1 else q) : ℕ) : ℚ) / r) < n := by
  set dw : ℕ := floor_usize ((n : ℚ) * r) with hdwdef
  set v : ℕ := if dw ≤ q then dw - 1 else q with hvdef
  by_cases hdw : dw = 0
  · have hv0 : v = 0 := by
      rw [hvdef, hdw]
      simp
    rw [hv0]
    have : ((0 : ℕ) : ℚ) / r = 0 := by simp
    rw [this]
    simpa [floor_usize] using hn
  · have hdw1 : 1 ≤ dw := Nat.one_le_iff_ne_zero.mpr hdw
    have hfl : (1 : ℤ) ≤ ⌊(n : ℚ) * r⌋ := by
      rw [hdwdef] at hdw1
      unfold floor_usize at hdw1
      omega
    have hnr : (1 : ℚ) ≤ (n : ℚ) * r := by
      exact_mod_cast Int.le_floor.mp hfl
    have hr : 0 < r := by
      rcases le_or_lt r 0 with h | h
      · exfalso
        have hnn : (0 : ℚ) ≤ (n : ℚ) := by positivity
        have : (n : ℚ) * r ≤ 0 := mul_nonpos_of_nonneg_of_nonpos hnn h
        linarith
      · exact h
    have hdwle : (dw : ℚ) ≤ (n : ℚ) * r := by
      have h0 : (0 : ℤ) ≤ ⌊(n : ℚ) * r⌋ := by omega
      have hcast : ((dw : ℕ) : ℚ) = ((⌊(n : ℚ) * r⌋ : ℤ) : ℚ) := by
        rw [hdwdef]
        unfold floor_usize
        exact_mod_cast congrArg (fun z : ℤ => (z : ℚ)) (Int.toNat_of_nonneg h0)
      rw [hcast]
      exact Int.floor_le _
    have hv : v ≤ dw - 1 := by
      rw [hvdef]
      split <;> omega
    have hvq : ((v : ℕ) : ℚ) ≤ (dw : ℚ) - 1 := by
      have : ((dw - 1 : ℕ) : ℚ) = (dw : ℚ) - 1 := by
        push_cast [hdw1]
        ring
      calc ((v : ℕ) : ℚ) ≤ ((dw - 1 : ℕ) : ℚ) := by exact_mod_cast hv
        _ = (dw : ℚ) - 1 := this
    have key : ((v : ℕ) : ℚ) / r < (n : ℚ) := by
      rw [div_lt_iff₀ hr]
      calc ((v : ℕ) : ℚ) ≤ (dw : ℚ) - 1 := hvq
        _ ≤ (n : ℚ) * r - 1 := by linarith
        _ < (n : ℚ) * r := by linarith
    have hfl2 : ⌊((v : ℕ) : ℚ) / r⌋ < (n : ℤ) := by
      rw [Int.floor_lt]
      exact_mod_cast key
    unfold floor_usize
    omega

/-- C9: for a window whose image has positive width and height,
`Window::fix_mouse_position` returns a point strictly inside the image's
pixel bounds, for every window size and every cursor position. -/
theorem fix_mouse_position_in_bounds (w : Window) (pt : Point)
    (hw : 0 < w.image.width) (hh : 0 < w.image.height) :
    (fix_mouse_position w pt).x < w.image.width ∧
    (fix_mouse_position w pt).y < w.image.height := by
  unfold fix_mouse_position scale_mouse_position
  constructor
  · exact scaled_axis_lt w.image.width _ _ hw
  · exact scaled_axis_lt w.image.height _ _ hh

/-- C9 witness: on a 100-by-50 window showing a 10-by-10 image, the fixed
cursor position stays inside the image bounds at a concrete cursor. -/
theorem fix_mouse_position_in_bounds_witness :
    (fix_mouse_position witWindow ⟨30, 7⟩).x < witWindow.image.width ∧
    (fix_mouse_position witWindow ⟨30, 7⟩).y < witWindow.image.height :=
  fix_mouse_position_in_bounds witWindow ⟨30, 7⟩ (by decide) (by decide)

/-- C10: when the queued batch contains a `Close` event, `Window::events`
marks the window closed and returns exactly the events preceding the
`Close` (as normally rewritten); the `Close` itself and everything queued
after it are dropped. -/
theorem events_close_drops_rest (w : Window) (pre post : List Event)
    (hpre : Event.close ∉ pre) :
    (events w (pre ++ Event.close :: post)).1.closed = true ∧
    (events w (pre ++ Event.close :: post)).2 = (events w pre).2 := by
  induction pre generalizing w with
  | nil => simp [events, close]
  | cons e rest ih =>
    have hne : e ≠ Event.close := fun h => hpre (h ▸ List.mem_cons_self e rest)
    have hrest : Event.close ∉ rest := fun h => hpre (List.mem_cons_of_mem _ h)
    cases e with
    | cursorPos ex ey =>
      simp only [List.cons_append, events]
      exact ⟨(ih _ hrest).1, by rw [List.append_eq, (ih _ hrest).2]⟩
    | size sw sh =>
      simp only [List.cons_append, events]
      exact ⟨(ih _ hrest).1, by rw [List.append_eq, (ih _ hrest).2]⟩
    | close => exact absurd rfl hne
    | other n =>
      simp only [List.cons_append, events]
      exact ⟨(ih _ hrest).1, by rw [List.append_eq, (ih _ hrest).2]⟩

/-- C10 witness: a concrete batch where a passthrough event precedes the
`Close` and another is queued after it. -/
theorem events_close_drops_rest_witness :
    (events witWindow ([Event.other 5] ++ Event.close :: [Event.other 9])).1.closed
        = true ∧
    (events witWindow ([Event.other 5] ++ Event.close :: [Event.other 9])).2 =
      (events witWindow [Event.other 5]).2 :=
  events_close_drops_rest witWindow [Event.other 5] [Event.other 9] (by decide)

/-- Folding a right-commutative update over a list is invariant under
permutations of the list. -/
theorem foldl_perm_of_comm {α β : Type} (f : β → α → β)
    (hc : ∀ b a1 a2, f (f b a1) a2 = f (f b a2) a1)
    {l1 l2 : List α} (hp : l1.Perm l2) :
    ∀ b, l1.foldl f b = l2.foldl f b := by
  induction hp with
  | nil => intro b; rfl
  | cons x _ ih => intro b; simp only [List.foldl_cons]; exact ih _
  | swap x y l => intro b; simp only [List.foldl_cons]; rw [hc]
  | trans _ _ ih1 ih2 => intro b; rw [ih1 b, ih2 b]

/-- Row writes commute: two units of `apply_async` write disjoint index
ranges (or the same range with the same values). -/
theorem write_row_comm (f : Point → List BImage → Pixel)
    (inputs : List BImage) (w : ℕ) (buf : Buffer) (r1 r2 : ℕ) :
    write_row f inputs w (write_row f inputs w buf r1) r2 =
      write_row f inputs w (write_row f inputs w buf r2) r1 := by
  funext i
  simp only [write_row]
  by_cases h1 : r1 * w ≤ i ∧ i < r1 * w + w
  · by_cases h2 : r2 * w ≤ i ∧ i < r2 * w + w
    · simp only [if_pos h1, if_pos h2]
      obtain ⟨h1a, h1b⟩ := h1
      obtain ⟨h2a, h2b⟩ := h2
      have hlt1 : r1 < r2 + 1 := by
        have hmul : r1 * w < (r2 + 1) * w := by
          calc r1 * w ≤ i := h1a
            _ < r2 * w + w := h2b
            _ = (r2 + 1) * w := by ring
        exact lt_of_mul_lt_mul_right hmul (Nat.zero_le w)
      have hlt2 : r2 < r1 + 1 := by
        have hmul : r2 * w < (r1 + 1) * w := by
          calc r2 * w ≤ i := h2a
            _ < r1 * w + w := h1b
            _ = (r1 + 1) * w := by ring
        exact lt_of_mul_lt_mul_right hmul (Nat.zero_le w)
      have hr : r1 = r2 := by omega
      subst hr
      rfl
    · simp only [if_pos h1, if_neg h2]
  · by_cases h2 : r2 * w ≤ i ∧ i < r2 * w + w
    · simp only [if_neg h1, if_pos h2]
    · simp only [if_neg h1, if_neg h2]

/-- Closed form of the row-partitioned evaluation when the rows complete
in ascending order. -/
theorem apply_async_row_range (f : Point → List BImage → Pixel)
    (inputs : List BImage) (w : ℕ) :
    ∀ (h : ℕ) (init : Buffer),
      apply_async_row f inputs w (List.range h) init =
        fun i => if i < h * w then f ⟨i % w, i / w⟩ inputs else init i := by
  intro h
  induction h with
  | zero =>
    intro init
    funext i
    simp [apply_async_row]
  | succ n ih =>
    intro init
    funext i
    unfold apply_async_row
    rw [List.range_succ, List.foldl_append]
    simp only [List.foldl_cons, List.foldl_nil]
    rw [show (List.range n).foldl (write_row f inputs w) init =
      apply_async_row f inputs w (List.range n) init from rfl, ih]
    simp only [write_row]
    by_cases hin : n * w ≤ i ∧ i < n * w + w
    · obtain ⟨ha, hb⟩ := hin
      have hb' : i < (n + 1) * w := by
        calc i < n * w + w := hb
          _ = (n + 1) * w := by ring
      have hdiv : i / w = n := Nat.div_eq_of_lt_le ha hb'
      have hdm := Nat.div_add_mod i w
      rw [hdiv] at hdm
      have hi : i = i % w + n * w := by linarith [hdm]
      have hmod : i - n * w = i % w := Nat.sub_eq_of_eq_add hi
      rw [if_pos ⟨ha, hb⟩, if_pos hb', hdiv, ← hmod]
    · by_cases hlt : i < n * w
      · have hlt' : i < (n + 1) * w := by
          calc i < n * w := hlt
            _ ≤ (n + 1) * w := Nat.mul_le_mul_right w (Nat.le_succ n)
        rw [if_neg hin, if_pos hlt, if_pos hlt']
      · have h1 : n * w ≤ i := Nat.le_of_not_lt hlt
        have h2 : ¬ i < n * w + w := fun hcon => hin ⟨h1, hcon⟩
        have h3 : ¬ i < (n + 1) * w := by
          rw [Nat.succ_mul]
          exact h2
        rw [if_neg hin, if_neg hlt, if_neg h3]

/-- Closed form of the synchronous point-by-point evaluation. -/
theorem eval_points_range (f : Point → List BImage → Pixel)
    (inputs : List BImage) (w : ℕ) :
    ∀ (n : ℕ) (init : Buffer),
      (List.range n).foldl (write_px f inputs w) init =
        fun i => if i < n then f ⟨i % w, i / w⟩ inputs else init i := by
  intro n
  induction n with
  | zero =>
    intro init
    funext i
    simp
  | succ m ih =>
    intro init
    funext i
    rw [List.range_succ, List.foldl_append]
    simp only [List.foldl_cons, List.foldl_nil]
    rw [ih]
    simp only [write_px]
    by_cases he : i = m
    · subst he
      simp
    · by_cases hlt : i < m
      · have : i < m + 1 := Nat.lt_succ_of_lt hlt
        simp [he, hlt, this]
      · have : ¬ i < m + 1 := by omega
        simp [he, hlt, this]

/-- C5: for every filter function, input list, destination size, initial
destination buffer, and completion order of the per-row units, the
row-partitioned concurrent evaluation produces a destination identical to
the synchronous evaluation. -/
theorem apply_async_row_eq_eval (f : Point → List BImage → Pixel)
    (inputs : List BImage) (w h : ℕ) (order : List ℕ) (init : Buffer)
    (hperm : order.Perm (List.range h)) :
    apply_async_row f inputs w order init = eval_filter f inputs w h init := by
  have hperm' : apply_async_row f inputs w order init =
      apply_async_row f inputs w (List.range h) init :=
    foldl_perm_of_comm (write_row f inputs w)
      (fun b a1 a2 => write_row_comm f inputs w b a1 a2) hperm init
  rw [hperm', apply_async_row_range]
  unfold eval_filter
  rw [eval_points_range]

/-- C5 witness: on a 2-by-2 destination with the rows completing in
reverse order, the concurrent result equals the synchronous one. -/
theorem apply_async_row_eq_eval_witness :
    apply_async_row witFilter [] 2 [1, 0] witBuf =
      eval_filter witFilter [] 2 2 witBuf :=
  apply_async_row_eq_eval witFilter [] 2 2 [1, 0] witBuf
    (by
      have h2 : List.range 2 = [0, 1] := rfl
      rw [h2]
      exact List.Perm.swap 0 1 [])

/-- A fingerprint is at distance zero from itself. -/
theorem diff_self_eq_zero : ∀ fp : List Bool, diff fp fp = 0 := by
  intro fp
  induction fp with
  | nil => rfl
  | cons b t ih =>
    unfold diff at ih ⊢
    rw [List.zip_cons_cons, List.countP_cons]
    simp [ih]

/-- C6: `hash` is a deterministic function of pixel content: two images
with the same dimensions and buffer have identical fingerprints, their
difference is zero, and every fingerprint is at distance zero from
itself. -/
theorem hash_deterministic (img1 img2 : BImage) (fp : List Bool)
    (hW : img1.width = img2.width) (hH : img1.height = img2.height)
    (hD : img1.data = img2.data) :
    hash img1 = hash img2 ∧ diff (hash img1) (hash img2) = 0 ∧
      diff fp fp = 0 := by
  have he : img1 = img2 := by
    cases img1
    cases img2
    simp_all
  subst he
  exact ⟨rfl, diff_self_eq_zero _, diff_self_eq_zero fp⟩

/-- C6 witness: two structurally equal concrete images hash identically
with difference zero. -/
theorem hash_deterministic_witness :
    hash witSrc = hash witSrc ∧ diff (hash witSrc) (hash witSrc) = 0 ∧
      diff [true, false] [true, false] = 0 :=
  hash_deterministic witSrc witSrc [true, false] rfl rfl rfl

/-- Reading every index of a buffer in order reproduces the buffer. -/
theorem map_getD_range (l : List Pixel) :
    (List.range l.length).map (fun i => l.getD i []) = l := by
  apply List.ext_getElem
  · simp
  · intro i h1 h2
    simp only [List.getElem_map, List.getElem_range]
    rw [List.getD_eq_getElem?_getD, List.getElem?_eq_getElem h2]
    rfl

/-- Inverting a pixel twice is the identity on the channel list. -/
theorem invert_twice_pixel (l : Pixel) :
    (l.map fun v => 1 - v).map (fun v => 1 - v) = l := by
  induction l with
  | nil => rfl
  | cons a t ih =>
    simp only [List.map_cons, ih, List.cons.injEq, and_true]
    ring

/-- C7: applying the `Invert` filter twice returns the original image
buffer, elementwise, for every image satisfying the buffer-length
invariant. -/
theorem invert_invert (img : BImage)
    (hlen : img.data.length = img.width * img.height) :
    eval_image invert_at (eval_image invert_at img) = img := by
  obtain ⟨w, h, data⟩ := img
  simp only at hlen
  unfold eval_image
  simp only [BImage.mk.injEq, true_and]
  apply List.ext_getElem
  · simp [hlen]
  · intro i hi1 hi2
    have hiwh : i < w * h := by simpa using hi1
    simp only [List.getElem_map, List.getElem_range]
    unfold invert_at get_pixel_b
    have hidx : i / w * w + i % w = i := by
      rw [Nat.mul_comm (i / w) w]
      exact Nat.div_add_mod i w
    simp only
    rw [hidx]
    have hlen2 : ((List.range (w * h)).map fun j =>
        (data.getD (j / w * w + j % w) []).map fun v => (1 : ℚ) - v).length
          = w * h := by
      simp
    rw [List.getD_eq_getElem?_getD, List.getElem?_eq_getElem (by simpa using hiwh)]
    simp only [List.getElem_map, List.getElem_range, Option.getD_some]
    rw [hidx]
    rw [List.getD_eq_getElem?_getD, List.getElem?_eq_getElem (by omega)]
    simp only [Option.getD_some]
    exact invert_twice_pixel _

/-- A concrete 2-by-1 image used as the C7 witness input. -/
theorem invert_invert_witness :
    eval_image invert_at (eval_image invert_at witSrc) = witSrc :=
  invert_invert witSrc rfl

/-- C8: `and_then` composition is not commutative: on the concrete
non-uniform image `witSrc` with the non-identity factors contrast 5/4 and
brightness 1/2, the two pipeline orders produce different buffers. -/
theorem and_then_not_commutative :
    get_pixel_b witSrc 0 0 ≠ get_pixel_b witSrc 1 0 ∧
    (5 / 4 : ℚ) ≠ 1 ∧ (1 / 2 : ℚ) ≠ 0 ∧
    and_then (contrast_at (5 / 4)) (brightness_at (1 / 2)) witSrc ≠
      and_then (brightness_at (1 / 2)) (contrast_at (5 / 4)) witSrc := by
  refine ⟨?_, by norm_num, by norm_num, ?_⟩
  · simp only [witSrc, get_pixel_b]
    norm_num
  · have hL : and_then (contrast_at (5 / 4)) (brightness_at (1 / 2)) witSrc =
        ⟨2, 1, [[(3 : ℚ) / 4], [1]]⟩ := by
      simp only [and_then, eval_image, witSrc, contrast_at, brightness_at,
        get_pixel_b, clamp01]
      norm_num [List.range_succ]
    have hR : and_then (brightness_at (1 / 2)) (contrast_at (5 / 4)) witSrc =
        ⟨2, 1, [[(7 : ℚ) / 8], [1]]⟩ := by
      simp only [and_then, eval_image, witSrc, contrast_at, brightness_at,
        get_pixel_b, clamp01]
      norm_num [List.range_succ]
    rw [hL, hR]
    intro hcon
    simp only [BImage.mk.injEq, List.cons.injEq] at hcon
    norm_num at hcon

end Image2
